import Mathlib

/-!
Shallow embedding of `src/upload_csv_to_postgres.py`, a CSV-to-PostgreSQL
loader, together with proofs about its identifier sanitization, type
inference, schema/insert column computation, batching and per-file
transactional orchestration.

Strings are modelled as their `List Char` data; the character-class
predicates model Python's regex classes (`\w`, `\s`), `str.lower` and
`str.isdigit` on the ASCII range, stated numerically on code points.
-/

namespace UploadCsv

/-! ## Character model (ASCII semantics of the Python string operations) -/

/-- Python regex `\w` on ASCII: `[a-zA-Z0-9_]` (codes 48-57, 65-90, 97-122, 95). -/
def isWordChar (c : Char) : Bool :=
  (48 ≤ c.toNat ∧ c.toNat ≤ 57) ∨ (65 ≤ c.toNat ∧ c.toNat ≤ 90) ∨
    (97 ≤ c.toNat ∧ c.toNat ≤ 122) ∨ c.toNat = 95

/-- Python regex `\s` on ASCII: space, `\t`, `\n`, `\r`, `\x0b`, `\x0c`. -/
def isSpaceChar (c : Char) : Bool :=
  c.toNat = 32 ∨ c.toNat = 9 ∨ c.toNat = 10 ∨ c.toNat = 13 ∨ c.toNat = 11 ∨ c.toNat = 12

/-- Python `str.isdigit` on ASCII: `[0-9]`. -/
def isDigitChar (c : Char) : Bool :=
  48 ≤ c.toNat ∧ c.toNat ≤ 57

/-- Python `str.lower` on ASCII: shift `A`-`Z` (65-90) down by 32. -/
def toLowerChar (c : Char) : Char :=
  if 65 ≤ c.toNat ∧ c.toNat ≤ 90 then Char.ofNat (c.toNat + 32) else c

/-- Lowercase every character of a string (Python `str.lower`, ASCII). -/
def lowerStr (s : String) : String :=
  ⟨s.data.map toLowerChar⟩

/-- The underscore test used by the `_+` collapsing pass. -/
def isUnderscore (c : Char) : Bool :=
  c = '_'

/-- Tail character class of the specification's identifier regex
`^[a-z_][a-z0-9_]*$`: `[a-z0-9_]` (codes 97-122, 48-57, 95). -/
def validTailChar (c : Char) : Bool :=
  (97 ≤ c.toNat ∧ c.toNat ≤ 122) ∨ (48 ≤ c.toNat ∧ c.toNat ≤ 57) ∨ c.toNat = 95

/-- The specification's identifier regex `^[a-z_][a-z0-9_]*$`. -/
def matchesIdentPattern (s : String) : Bool :=
  match s.data with
  | [] => false
  | c :: cs => ((97 ≤ c.toNat ∧ c.toNat ≤ 122) ∨ c.toNat = 95 : Bool) && cs.all validTailChar

/-- ASCII code points. -/
def isAsciiChar (c : Char) : Bool :=
  c.toNat < 128

/-- No two adjacent underscores (holds of every sanitized identifier). -/
def NoDouble (l : List Char) : Prop :=
  List.Chain' (fun a b => ¬(a = '_' ∧ b = '_')) l

/-- Executable form of `NoDouble`. -/
def noDoubleB : List Char → Bool
  | [] => true
  | [_] => true
  | a :: b :: rest => !(isUnderscore a && isUnderscore b) && noDoubleB (b :: rest)

instance : DecidablePred NoDouble := fun l =>
  decidable_of_iff (noDoubleB l = true)
    (by
      induction l with
      | nil => simp [noDoubleB, NoDouble]
      | cons a tail ih =>
        cases tail with
        | nil => simp [noDoubleB, NoDouble]
        | cons b rest =>
          unfold NoDouble at ih ⊢
          rw [List.chain'_cons, ← ih]
          simp [noDoubleB, isUnderscore, Bool.and_eq_true, not_and]
          tauto)

/-- Whether a character list starts with an ASCII digit. -/
def headIsDigit : List Char → Bool
  | [] => false
  | c :: _ => isDigitChar c

/-- Whether a string's first character is an ASCII digit. -/
def firstCharDigit (s : String) : Bool :=
  headIsDigit s.data

/-! ## Generic list helpers used by the embedding -/

/-- Replace every maximal run of characters satisfying `p` by the single
character `r`; `inRun` records whether the previous character was in a run.
This is `re.sub(p+, r, _)` for a character class `p`. -/
def collapseRunsAux (p : Char → Bool) (r : Char) : Bool → List Char → List Char
  | _, [] => []
  | inRun, c :: cs =>
    if p c then
      if inRun then collapseRunsAux p r true cs
      else r :: collapseRunsAux p r true cs
    else c :: collapseRunsAux p r false cs

/-- Replace every maximal run of characters satisfying `p` by `r`. -/
def collapseRuns (p : Char → Bool) (r : Char) (l : List Char) : List Char :=
  collapseRunsAux p r false l

/-- Python `str.strip(t)`: drop leading and trailing occurrences of `t`. -/
def stripChar (t : Char) (l : List Char) : List Char :=
  ((l.dropWhile (· = t)).reverse.dropWhile (· = t)).reverse

/-- `listPrefixOf p l` holds when `p` is a prefix of `l`. -/
def listPrefixOf : List Char → List Char → Bool
  | [], _ => true
  | _ :: _, [] => false
  | a :: as, b :: bs => a = b && listPrefixOf as bs

/-- Python `needle in hay`: `needle` occurs as a contiguous substring. -/
def containsSub (needle : List Char) : List Char → Bool
  | [] => listPrefixOf needle []
  | c :: cs => listPrefixOf needle (c :: cs) || containsSub needle cs

/-- One fuel-indexed step of Python `str.replace(pat, "")`: scan left to
right, removing each non-overlapping occurrence of `pat`.  The fuel is an
upper bound on the number of scanning steps; `fuel ≥ length` is enough. -/
def removeOccurAux (pat : List Char) : Nat → List Char → List Char
  | _, [] => []
  | 0, l => l
  | fuel + 1, c :: cs =>
    if listPrefixOf pat (c :: cs) then removeOccurAux pat fuel ((c :: cs).drop pat.length)
    else c :: removeOccurAux pat fuel cs

/-- Python `str.replace(pat, "")` (for nonempty `pat`). -/
def removeOccur (pat l : List Char) : List Char :=
  removeOccurAux pat l.length l

/-- Keep the first occurrence of each element, dropping later duplicates:
the key order of a Python dict comprehension. `seen` are the keys already
emitted. -/
def dedupAux (seen : List String) : List String → List String
  | [] => []
  | c :: cs => if c ∈ seen then dedupAux seen cs else c :: dedupAux (c :: seen) cs

/-- First-occurrence deduplication (Python dict-comprehension key order). -/
def dedupKeepFirst (l : List String) : List String :=
  dedupAux [] l

/-! ## `sanitize_column_name` (source lines 35-66) -/

/-- The per-character effect of `re.sub(r'[^\w\s]', '_', name)`: any
character that is neither a word character nor whitespace becomes `_`. -/
def sanitizeStep (c : Char) : Char :=
  if isWordChar c || isSpaceChar c then c else '_'

/-- The normalisation passes of `sanitize_column_name` before the digit
and emptiness checks: lowercase; replace `[^\w\s]` by `_`; replace `\s+`
by `_`; collapse `_+`; strip leading/trailing `_`. -/
def sanitizePre (l : List Char) : List Char :=
  stripChar '_'
    (collapseRuns isUnderscore '_'
      (collapseRuns isSpaceChar '_' ((l.map toLowerChar).map sanitizeStep)))

/-- The character-list body of `sanitize_column_name`: the normalisation
passes, then prepend `col_` when the result starts with a digit, and
substitute `unnamed_column` when the result is empty (the digit check only
fires on a nonempty name, so checking emptiness first is equivalent). -/
def sanitizeChars (l : List Char) : List Char :=
  if sanitizePre l = [] then "unnamed_column".data
  else if headIsDigit (sanitizePre l) then "col_".data ++ sanitizePre l
  else sanitizePre l

/-- `sanitize_column_name` from the source. -/
def sanitize_column_name (s : String) : String :=
  ⟨sanitizeChars s.data⟩

/-! ## `get_postgres_type` (source lines 69-92) -/

/-- `get_postgres_type`, acting on the string form of the reported dtype:
the first matching substring among `int`, `float`, `bool`, `datetime`,
`date` decides the type; otherwise `TEXT`. -/
def get_postgres_type (dtype : String) : String :=
  if containsSub "int".data dtype.data then "BIGINT"
  else if containsSub "float".data dtype.data then "DOUBLE PRECISION"
  else if containsSub "bool".data dtype.data then "BOOLEAN"
  else if containsSub "datetime".data dtype.data then "TIMESTAMP"
  else if containsSub "date".data dtype.data then "DATE"
  else "TEXT"

/-- The six type tags of the specification's Type Inferencer. -/
inductive PgTag where
  | integer64 | float64 | boolean | timestamp | date | text
deriving DecidableEq

/-- Modelled from the spec: the Type Inferencer's precedence order
(integer-like, floating-point-like, boolean-like, date-and-time-like,
date-only-like, else TEXT), used to compare against `get_postgres_type`. -/
def inferTagSpec (dtype : String) : PgTag :=
  if containsSub "int".data dtype.data then .integer64
  else if containsSub "float".data dtype.data then .float64
  else if containsSub "bool".data dtype.data then .boolean
  else if containsSub "datetime".data dtype.data then .timestamp
  else if containsSub "date".data dtype.data then .date
  else .text

/-- Rendering of a spec type tag as the SQL type string the code emits. -/
def tagToSql : PgTag → String
  | .integer64 => "BIGINT"
  | .float64 => "DOUBLE PRECISION"
  | .boolean => "BOOLEAN"
  | .timestamp => "TIMESTAMP"
  | .date => "DATE"
  | .text => "TEXT"

/-! ## Column-identifier computation of `create_table` and `insert_data` -/

/-- The shared `id`-to-`original_id` renaming applied by both
`create_table` (lines 107-118) and `insert_data` (lines 162-165): when any
sanitized name lowercases to `id`, every such name becomes `original_id`. -/
def renameIdList (names : List String) : List String :=
  if names.any (fun n => lowerStr n = "id") then
    names.map (fun n => if lowerStr n = "id" then "original_id" else n)
  else names

/-- The column identifiers `create_table` emits (lines 104-118): a dict
comprehension keyed by the original labels (first-occurrence order, later
duplicate keys collapse), values sanitized, then the `id` rename. -/
def createTableColumns (cols : List String) : List String :=
  renameIdList ((dedupKeepFirst cols).map sanitize_column_name)

/-- The column identifiers `insert_data` recomputes (lines 159-165): a list
comprehension over the original labels, then the `id` rename. -/
def insertDataColumns (cols : List String) : List String :=
  renameIdList (cols.map sanitize_column_name)

/-! ## Datasets, `insert_data` batching, `get_table_name_from_filename` -/

/-- A cell value; `none` is the null marker (NaN replaced by None). -/
def Cell := Option String
deriving instance DecidableEq for Cell

/-- A parsed dataset: ordered column labels and rows of cells. -/
structure Dataset where
  cols : List String
  rows : List (List Cell)
deriving DecidableEq

/-- What one call of `insert_data` does: the recomputed insert column
list, the row groups handed to `executemany` (one per batch), and the
returned row count. -/
structure InsertTrace where
  insertCols : List String
  batches : List (List (List Cell))
  returned : Nat
deriving DecidableEq

/-- `insert_data` (source lines 143-193): return 0 at once when the frame
is empty (either axis of length zero); otherwise recompute the sanitized,
`id`-renamed columns and submit the rows in batches of 1000, iterating
`i = 0, 1000, 2000, ...` and taking `rows[i : i+1000]` each time. -/
def insert_data (df : Dataset) : InsertTrace :=
  if df.rows.isEmpty || df.cols.isEmpty then ⟨[], [], 0⟩
  else
    ⟨insertDataColumns df.cols,
     (List.range ((df.rows.length + 999) / 1000)).map
       (fun i => (df.rows.drop (1000 * i)).take 1000),
     df.rows.length⟩

/-- `get_table_name_from_filename` (lines 196-208): Python
`filename.replace(".csv", "")`. -/
def get_table_name_from_filename (filename : String) : String :=
  ⟨removeOccur ".csv".data filename.data⟩

/-! ## Per-file orchestration (`load_csv_to_postgres`, lines 211-259) -/

/-- Database-visible operations the orchestrator can issue for one file
(the `DROP TABLE` preceding each creation is elided: no claim concerns it). -/
inductive DbOp where
  | createTable (name : String) (cols : List String)
  | insertBatch (name : String) (rows : Nat)
  | commit
  | rollback
deriving DecidableEq

def isCreate : DbOp → Bool
  | .createTable _ _ => true
  | _ => false

def isInsertOp : DbOp → Bool
  | .insertBatch _ _ => true
  | _ => false

def isCommit : DbOp → Bool
  | .commit => true
  | _ => false

def isRollback : DbOp → Bool
  | .rollback => true
  | _ => false

/-- Status field of a per-file result record. -/
inductive LoadStatus where
  | success | failed
deriving DecidableEq

/-- The per-file result dictionary the orchestrator returns. -/
structure LoadResult where
  filename : String
  table_name : String
  status : LoadStatus
  rows : Option Nat
  columns : Option Nat
  error : Option String
deriving DecidableEq

/-- Environment for one file: the parse outcome of `pd.read_csv`, and
whether the database collaborator raises during table creation or during
the batched inserts (`some msg` injects that failure). The commit of a
fully loaded file is modelled as succeeding. -/
structure FileJob where
  filename : String
  parseResult : Except String Dataset
  createErr : Option String
  insertErr : Option String

/-- The first error raised while processing a file, if any: parsing, then
table creation, then insertion. -/
def firstError (job : FileJob) : Option String :=
  match job.parseResult with
  | .error e => some e
  | .ok _ =>
    match job.createErr with
    | some e => some e
    | none => job.insertErr

/-- `load_csv_to_postgres`: run parse, `create_table`, `insert_data` in
order inside one try block; on any exception roll back and return a failed
record; otherwise commit and return a success record with the inserted row
count and the column count. -/
def load_csv_to_postgres (job : FileJob) : LoadResult × List DbOp :=
  let t := get_table_name_from_filename job.filename
  match job.parseResult with
  | .error e => (⟨job.filename, t, .failed, none, none, some e⟩, [.rollback])
  | .ok df =>
    match job.createErr with
    | some e => (⟨job.filename, t, .failed, none, none, some e⟩, [.rollback])
    | none =>
      let created := DbOp.createTable t (createTableColumns df.cols)
      match job.insertErr with
      | some e => (⟨job.filename, t, .failed, none, none, some e⟩, [created, .rollback])
      | none =>
        let tr := insert_data df
        (⟨job.filename, t, .success, some tr.returned, some df.cols.length, none⟩,
         created :: tr.batches.map (fun b => DbOp.insertBatch t b.length) ++ [.commit])

/-- The `main` loop over the sorted file list (lines 304-308): every file
is processed, in order, unconditionally. -/
def processFiles (jobs : List FileJob) : List (LoadResult × List DbOp) :=
  jobs.map load_csv_to_postgres

/-! ## Helper lemmas: characters -/

theorem toNat_charOfNat (n : Nat) (h : n < 55296) : (Char.ofNat n).toNat = n := by
  have hv : Nat.isValidChar n := Or.inl h
  simp [Char.ofNat, hv, Char.ofNatAux, Char.toNat]
  rfl

theorem char_eq_iff_toNat (c d : Char) : c = d ↔ c.toNat = d.toNat := by
  constructor
  · intro h; rw [h]
  · intro h
    have h2 := congrArg Char.ofNat h
    simpa [Char.ofNat_toNat] using h2

theorem toNat_toLowerChar (c : Char) :
    (toLowerChar c).toNat =
      if 65 ≤ c.toNat ∧ c.toNat ≤ 90 then c.toNat + 32 else c.toNat := by
  unfold toLowerChar
  split
  · next h => exact toNat_charOfNat _ (by omega)
  · rfl

theorem isWordChar_iff (c : Char) :
    isWordChar c = true ↔
      ((48 ≤ c.toNat ∧ c.toNat ≤ 57) ∨ (65 ≤ c.toNat ∧ c.toNat ≤ 90) ∨
        (97 ≤ c.toNat ∧ c.toNat ≤ 122) ∨ c.toNat = 95) := by
  simp [isWordChar]

theorem isSpaceChar_iff (c : Char) :
    isSpaceChar c = true ↔
      (c.toNat = 32 ∨ c.toNat = 9 ∨ c.toNat = 10 ∨ c.toNat = 13 ∨
        c.toNat = 11 ∨ c.toNat = 12) := by
  simp [isSpaceChar]

theorem isDigitChar_iff (c : Char) :
    isDigitChar c = true ↔ (48 ≤ c.toNat ∧ c.toNat ≤ 57) := by
  simp [isDigitChar]

theorem validTailChar_iff (c : Char) :
    validTailChar c = true ↔
      ((97 ≤ c.toNat ∧ c.toNat ≤ 122) ∨ (48 ≤ c.toNat ∧ c.toNat ≤ 57) ∨
        c.toNat = 95) := by
  simp [validTailChar]

theorem isUnderscore_iff (c : Char) : isUnderscore c = true ↔ c.toNat = 95 := by
  simp [isUnderscore, char_eq_iff_toNat]

theorem underscore_toNat : ('_').toNat = 95 := rfl

/-- The character produced by the lowercase and punctuation passes is a
valid identifier-tail character or whitespace. -/
theorem sanitizeStep_toLower_valid (c : Char) :
    validTailChar (sanitizeStep (toLowerChar c)) = true ∨
      isSpaceChar (sanitizeStep (toLowerChar c)) = true := by
  have hdn := toNat_toLowerChar c
  unfold sanitizeStep
  by_cases h : (isWordChar (toLowerChar c) || isSpaceChar (toLowerChar c)) = true
  · rw [if_pos h]
    rcases Bool.or_eq_true_iff.mp h with hw | hs
    · left
      rw [isWordChar_iff] at hw
      rw [validTailChar_iff]
      by_cases hc : 65 ≤ c.toNat ∧ c.toNat ≤ 90
      · rw [if_pos hc] at hdn; omega
      · rw [if_neg hc] at hdn; omega
    · right; exact hs
  · rw [if_neg h]; left; decide

/-! ## Helper lemmas: run collapsing, stripping -/

theorem mem_collapseRunsAux (p : Char → Bool) (r : Char) :
    ∀ (l : List Char) (b : Bool) (x : Char),
      x ∈ collapseRunsAux p r b l → x = r ∨ (x ∈ l ∧ p x = false) := by
  intro l
  induction l with
  | nil => intro b x h; simp [collapseRunsAux] at h
  | cons c cs ih =>
    intro b x h
    unfold collapseRunsAux at h
    split at h
    · split at h
      · rcases ih true x h with h1 | h2
        · exact Or.inl h1
        · exact Or.inr ⟨List.mem_cons_of_mem _ h2.1, h2.2⟩
      · rcases List.mem_cons.mp h with h1 | h1
        · exact Or.inl h1
        · rcases ih true x h1 with h2 | h3
          · exact Or.inl h2
          · exact Or.inr ⟨List.mem_cons_of_mem _ h3.1, h3.2⟩
    · next hpc =>
      rcases List.mem_cons.mp h with h1 | h1
      · subst h1
        exact Or.inr ⟨List.mem_cons_self _ _, by simpa using hpc⟩
      · rcases ih false x h1 with h2 | h3
        · exact Or.inl h2
        · exact Or.inr ⟨List.mem_cons_of_mem _ h3.1, h3.2⟩

theorem collapseRunsAux_id (p : Char → Bool) (r : Char) :
    ∀ (l : List Char) (b : Bool), (∀ c ∈ l, p c = false) →
      collapseRunsAux p r b l = l := by
  intro l
  induction l with
  | nil => intro b _; rfl
  | cons c cs ih =>
    intro b h
    have hc : p c = false := h c (List.mem_cons_self _ _)
    unfold collapseRunsAux
    rw [if_neg (by simp [hc])]
    rw [ih false (fun x hx => h x (List.mem_cons_of_mem _ hx))]

theorem head_collapseRunsAux_true (p : Char → Bool) (r : Char) :
    ∀ (l : List Char) (c : Char),
      (collapseRunsAux p r true l).head? = some c → p c = false := by
  intro l
  induction l with
  | nil => intro c h; simp [collapseRunsAux] at h
  | cons a as ih =>
    intro c h
    unfold collapseRunsAux at h
    split at h
    · rw [if_pos rfl] at h
      exact ih c h
    · next hp =>
      simp only [List.head?_cons, Option.some.injEq] at h
      subst h
      simpa using hp

/-- Collapsing underscore runs leaves no two adjacent underscores. -/
theorem noDouble_collapseUnderscore :
    ∀ (l : List Char) (b : Bool), NoDouble (collapseRunsAux isUnderscore '_' b l) := by
  intro l
  induction l with
  | nil => intro b; simp [collapseRunsAux, NoDouble]
  | cons c cs ih =>
    intro b
    unfold collapseRunsAux
    split
    · split
      · exact ih true
      · unfold NoDouble
        rw [List.chain'_cons']
        refine ⟨?_, ih true⟩
        intro y hy
        have hyp := head_collapseRunsAux_true isUnderscore '_' cs y (Option.mem_def.mp hy)
        intro hc
        rw [isUnderscore, hc.2] at hyp
        simp at hyp
    · next hp =>
      unfold NoDouble
      rw [List.chain'_cons']
      refine ⟨?_, ih false⟩
      intro y _ hc
      exact hp (by simp [isUnderscore, hc.1])

/-- Collapsing underscore runs is the identity on a list with no two
adjacent underscores (paired with the statement for the in-run state). -/
theorem collapseRunsAux_underscore_id :
    ∀ (l : List Char), NoDouble l →
      collapseRunsAux isUnderscore '_' false l = l ∧
      ((∀ c, l.head? = some c → c ≠ '_') →
        collapseRunsAux isUnderscore '_' true l = l) := by
  intro l
  induction l with
  | nil => exact fun _ => ⟨rfl, fun _ => rfl⟩
  | cons a as ih =>
    intro hnd
    unfold NoDouble at hnd
    rw [List.chain'_cons'] at hnd
    obtain ⟨hpair, hnd'⟩ := hnd
    constructor
    · unfold collapseRunsAux
      by_cases ha : isUnderscore a = true
      · rw [if_pos ha, if_neg (by simp)]
        have ha' : a = '_' := by simpa [isUnderscore] using ha
        rw [(ih hnd').2 ?_, ha']
        intro c hc hc'
        exact hpair c (Option.mem_def.mpr hc) ⟨ha', hc'⟩
      · rw [if_neg ha, (ih hnd').1]
    · intro hhead
      have ha : a ≠ '_' := hhead a rfl
      unfold collapseRunsAux
      rw [if_neg (by simpa [isUnderscore] using ha), (ih hnd').1]

theorem mem_stripChar (t : Char) (l : List Char) (x : Char)
    (h : x ∈ stripChar t l) : x ∈ l := by
  unfold stripChar at h
  rw [List.mem_reverse] at h
  have h2 := List.Sublist.mem h (List.dropWhile_sublist _)
  rw [List.mem_reverse] at h2
  exact List.Sublist.mem h2 (List.dropWhile_sublist _)

theorem head?_dropWhile_false (p : Char → Bool) :
    ∀ (l : List Char) (c : Char), (l.dropWhile p).head? = some c → p c = false := by
  intro l
  induction l with
  | nil => intro c h; simp at h
  | cons a as ih =>
    intro c h
    rw [List.dropWhile_cons] at h
    split at h
    · exact ih c h
    · next hp =>
      simp only [List.head?_cons, Option.some.injEq] at h
      subst h
      simpa using hp

theorem head?_stripChar (t : Char) (l : List Char) (c : Char)
    (h : (stripChar t l).head? = some c) : c ≠ t := by
  unfold stripChar at h
  rw [List.head?_reverse] at h
  obtain ⟨pre, hpre⟩ := List.dropWhile_suffix (l := (l.dropWhile (· = t)).reverse) (· = t)
  have hXne : (l.dropWhile (· = t)).reverse.dropWhile (· = t) ≠ [] := by
    intro hx
    rw [hx] at h
    simp at h
  have h2 : (l.dropWhile (· = t)).reverse.getLast? = some c := by
    rw [← hpre, List.getLast?_append_of_ne_nil _ hXne]
    exact h
  rw [List.getLast?_reverse] at h2
  have h3 := head?_dropWhile_false (· = t) l c h2
  simpa using h3

theorem getLast?_stripChar (t : Char) (l : List Char) (c : Char)
    (h : (stripChar t l).getLast? = some c) : c ≠ t := by
  unfold stripChar at h
  rw [List.getLast?_reverse] at h
  have h2 := head?_dropWhile_false (· = t) _ c h
  simpa using h2

theorem stripChar_id (t : Char) (l : List Char)
    (hh : ∀ c, l.head? = some c → c ≠ t) (hl : ∀ c, l.getLast? = some c → c ≠ t) :
    stripChar t l = l := by
  unfold stripChar
  cases l with
  | nil => rfl
  | cons a as =>
    have ha : a ≠ t := hh a rfl
    rw [List.dropWhile_cons, if_neg (by simpa using ha)]
    cases hres : (a :: as).reverse with
    | nil => simp at hres
    | cons b bs =>
      have hb : (a :: as).getLast? = some b := by
        rw [← List.head?_reverse, hres]
        rfl
      have hbt : b ≠ t := hl b hb
      rw [List.dropWhile_cons, if_neg (by simpa using hbt), ← hres,
        List.reverse_reverse]

theorem noDouble_stripChar (t : Char) (l : List Char) (h : NoDouble l) :
    NoDouble (stripChar t l) := by
  unfold NoDouble at h ⊢
  unfold stripChar
  have h1 := h.suffix (List.dropWhile_suffix (· = t))
  have h2 : List.Chain' (fun a b => ¬(a = '_' ∧ b = '_'))
      ((l.dropWhile (· = t)).reverse) := by
    rw [List.chain'_reverse]
    exact h1.imp (fun a b hab hc => hab ⟨hc.2, hc.1⟩)
  have h3 := h2.suffix (List.dropWhile_suffix (· = t))
  rw [List.chain'_reverse]
  exact h3.imp (fun a b hab hc => hab ⟨hc.2, hc.1⟩)

/-! ## Helper lemmas: shape of sanitized identifiers -/

/-- After the normalisation passes, every character is a valid tail
character, the ends are not underscores, and no two underscores are
adjacent. -/
theorem sanitizePre_facts (l : List Char) :
    (∀ c ∈ sanitizePre l, validTailChar c = true) ∧
    (∀ c, (sanitizePre l).head? = some c → c ≠ '_') ∧
    (∀ c, (sanitizePre l).getLast? = some c → c ≠ '_') ∧
    NoDouble (sanitizePre l) := by
  unfold sanitizePre
  refine ⟨?_, ?_, ?_, ?_⟩
  · intro c hc
    have hc4 := mem_stripChar _ _ _ hc
    rcases mem_collapseRunsAux _ _ _ _ _ hc4 with h | ⟨h3, _⟩
    · subst h; decide
    rcases mem_collapseRunsAux _ _ _ _ _ h3 with h | ⟨h2, hns⟩
    · subst h; decide
    rw [List.map_map] at h2
    obtain ⟨a, _, ha⟩ := List.mem_map.mp h2
    rcases sanitizeStep_toLower_valid a with hv | hs
    · rw [Function.comp_apply] at ha
      rw [ha] at hv
      exact hv
    · rw [Function.comp_apply] at ha
      rw [ha] at hs
      rw [hs] at hns
      cases hns
  · intro c hc
    exact head?_stripChar _ _ _ hc
  · intro c hc
    exact getLast?_stripChar _ _ _ hc
  · exact noDouble_stripChar _ _ (noDouble_collapseUnderscore _ false)

/-- Every output of the sanitizer is nonempty, consists of valid tail
characters, starts with a lowercase letter, does not end in an underscore
and has no adjacent underscores. -/
theorem sanitizeChars_clean (l : List Char) :
    sanitizeChars l ≠ [] ∧
    (∀ c ∈ sanitizeChars l, validTailChar c = true) ∧
    (∀ c, (sanitizeChars l).head? = some c → 97 ≤ c.toNat ∧ c.toNat ≤ 122) ∧
    (∀ c, (sanitizeChars l).getLast? = some c → c ≠ '_') ∧
    NoDouble (sanitizeChars l) := by
  obtain ⟨hmem, hhead, hlast, hnd⟩ := sanitizePre_facts l
  unfold sanitizeChars
  cases hpre : sanitizePre l with
  | nil =>
    rw [if_pos rfl]
    refine ⟨by decide, by decide, ?_, ?_, by decide⟩
    · intro c hc
      have h2 : (some 'u' : Option Char) = some c := hc
      injection h2 with h3
      subst h3
      decide
    · intro c hc
      have h2 : (some 'n' : Option Char) = some c := hc
      injection h2 with h3
      subst h3
      decide
  | cons a rest =>
    rw [hpre] at hmem hhead hlast hnd
    have hmem_a : validTailChar a = true := hmem a (List.mem_cons_self _ _)
    have ha_ne : a ≠ '_' := hhead a rfl
    rw [if_neg (List.cons_ne_nil a rest)]
    by_cases hd : isDigitChar a = true
    · have hd2 : headIsDigit (a :: rest) = true := hd
      rw [if_pos hd2]
      have ha_digit : 48 ≤ a.toNat ∧ a.toNat ≤ 57 := (isDigitChar_iff a).mp hd
      refine ⟨by simp, ?_, ?_, ?_, ?_⟩
      · intro c hc
        rw [List.mem_append] at hc
        rcases hc with hc | hc
        · have : c = 'c' ∨ c = 'o' ∨ c = 'l' ∨ c = '_' := by
            simpa using hc
          rcases this with h | h | h | h <;> (subst h; decide)
        · exact hmem c hc
      · intro c hc
        have h2 : (some 'c' : Option Char) = some c := hc
        injection h2 with h3
        subst h3
        decide
      · intro c hc
        rw [List.getLast?_append_of_ne_nil _ (by simp)] at hc
        exact hlast c hc
      · unfold NoDouble
        rw [List.chain'_append]
        refine ⟨(by decide : NoDouble "col_".data), hnd, ?_⟩
        intro x hx y hy
        rw [Option.mem_def] at hx hy
        have hx2 : (some '_' : Option Char) = some x := hx
        have hy2 : (some a : Option Char) = some y := hy
        injection hx2 with hx3
        injection hy2 with hy3
        subst hx3 hy3
        intro hcon
        rw [hcon.2, underscore_toNat] at ha_digit
        omega
    · rw [if_neg (show ¬ headIsDigit (a :: rest) = true from hd)]
      refine ⟨by simp, hmem, ?_, hlast, hnd⟩
      intro c hc
      have hca : c = a := by
        injection hc with h3
        exact h3.symm
      subst hca
      rw [validTailChar_iff] at hmem_a
      rw [isDigitChar_iff] at hd
      have ha95 : c.toNat ≠ 95 := by
        intro h95
        exact ha_ne ((char_eq_iff_toNat _ _).mpr (by rw [underscore_toNat]; exact h95))
      omega

/-- The sanitizer is the identity on any list with the shape of a
sanitizer output. -/
theorem sanitizeChars_fix (x : List Char)
    (hne : x ≠ [])
    (hmem : ∀ c ∈ x, validTailChar c = true)
    (hhead : ∀ c, x.head? = some c → 97 ≤ c.toNat ∧ c.toNat ≤ 122)
    (hlast : ∀ c, x.getLast? = some c → c ≠ '_')
    (hnd : NoDouble x) :
    sanitizeChars x = x := by
  have h1 : x.map toLowerChar = x := by
    have heq : ∀ c ∈ x, toLowerChar c = id c := by
      intro c hc
      have hv := (validTailChar_iff c).mp (hmem c hc)
      unfold toLowerChar
      rw [if_neg (by omega)]
      rfl
    rw [List.map_congr_left heq, List.map_id]
  have h2 : x.map sanitizeStep = x := by
    have heq : ∀ c ∈ x, sanitizeStep c = id c := by
      intro c hc
      have hv := (validTailChar_iff c).mp (hmem c hc)
      unfold sanitizeStep
      rw [if_pos]
      · rfl
      · rw [Bool.or_eq_true_iff]
        left
        rw [isWordChar_iff]
        omega
    rw [List.map_congr_left heq, List.map_id]
  have h3 : collapseRuns isSpaceChar '_' x = x := by
    unfold collapseRuns
    refine collapseRunsAux_id _ _ x false ?_
    intro c hc
    have hv := (validTailChar_iff c).mp (hmem c hc)
    rw [Bool.eq_false_iff]
    intro hs
    rw [isSpaceChar_iff] at hs
    omega
  have h4 : collapseRuns isUnderscore '_' x = x :=
    (collapseRunsAux_underscore_id x hnd).1
  have h5 : stripChar '_' x = x := by
    refine stripChar_id _ _ ?_ hlast
    intro c hc hEq
    have h97 := hhead c hc
    rw [hEq, underscore_toNat] at h97
    omega
  unfold sanitizeChars sanitizePre
  rw [h1, h2, h3, h4, h5]
  cases x with
  | nil => exact absurd rfl hne
  | cons a rest =>
    have h97 := hhead a rfl
    have hnd2 : ¬ headIsDigit (a :: rest) = true := by
      intro hdig
      have hd := (isDigitChar_iff a).mp hdig
      omega
    rw [if_neg (List.cons_ne_nil a rest), if_neg hnd2]

/-- Applying the sanitizer twice is the same as applying it once. -/
theorem sanitizeChars_idem (l : List Char) :
    sanitizeChars (sanitizeChars l) = sanitizeChars l := by
  obtain ⟨hne, hmem, hhead, hlast, hnd⟩ := sanitizeChars_clean l
  exact sanitizeChars_fix _ hne hmem hhead hlast hnd

/-- A nonempty list of valid tail characters starting with a lowercase
letter matches the specification's identifier regex. -/
theorem matchesIdent_of_clean (l : List Char) (hne : l ≠ [])
    (hmem : ∀ c ∈ l, validTailChar c = true)
    (hhead : ∀ c, l.head? = some c → 97 ≤ c.toNat ∧ c.toNat ≤ 122) :
    matchesIdentPattern ⟨l⟩ = true := by
  unfold matchesIdentPattern
  cases l with
  | nil => exact absurd rfl hne
  | cons a rest =>
    have h97 := hhead a rfl
    rw [Bool.and_eq_true]
    constructor
    · simp only [decide_eq_true_eq]
      left
      exact h97
    · rw [List.all_eq_true]
      intro c hc
      exact hmem c (List.mem_cons_of_mem _ hc)

/-! ## Helper lemmas: deduplication, substring removal, batching -/

/-- On a duplicate-free list the dict-comprehension key order is the list
itself. -/
theorem dedupAux_of_nodup :
    ∀ (l seen : List String), l.Nodup → (∀ x ∈ l, x ∉ seen) →
      dedupAux seen l = l := by
  intro l
  induction l with
  | nil => intro seen _ _; rfl
  | cons c cs ih =>
    intro seen hnd hseen
    rw [List.nodup_cons] at hnd
    unfold dedupAux
    rw [if_neg (hseen c (List.mem_cons_self _ _))]
    rw [ih (c :: seen) hnd.2]
    intro x hx
    rw [List.mem_cons, not_or]
    exact ⟨fun hxc => hnd.1 (hxc ▸ hx), hseen x (List.mem_cons_of_mem _ hx)⟩

theorem dedupKeepFirst_of_nodup (l : List String) (h : l.Nodup) :
    dedupKeepFirst l = l :=
  dedupAux_of_nodup l [] h (by simp)

theorem listPrefixOf_iff_append :
    ∀ (p l : List Char), listPrefixOf p l = true ↔ ∃ t, l = p ++ t := by
  intro p
  induction p with
  | nil =>
    intro l
    simp [listPrefixOf]
  | cons a as ih =>
    intro l
    cases l with
    | nil =>
      simp [listPrefixOf]
    | cons b bs =>
      unfold listPrefixOf
      rw [Bool.and_eq_true, decide_eq_true_eq, ih bs]
      constructor
      · rintro ⟨rfl, t, rfl⟩
        exact ⟨t, rfl⟩
      · rintro ⟨t, ht⟩
        injection ht with h1 h2
        exact ⟨h1.symm, t, h2⟩

theorem removeOccurAux_nil (pat : List Char) (fuel : Nat) :
    removeOccurAux pat fuel [] = [] := by
  cases fuel <;> rfl

/-- Removing occurrences of `pat` from `stem ++ pat` gives `stem` when
`pat` occurs nowhere except at the very end. -/
theorem removeOccurAux_stem (pat : List Char) (hp : pat ≠ []) :
    ∀ (stem : List Char) (fuel : Nat), (stem ++ pat).length ≤ fuel →
      containsSub pat (stem ++ pat.dropLast) = false →
      removeOccurAux pat fuel (stem ++ pat) = stem := by
  intro stem
  induction stem with
  | nil =>
    intro fuel hfuel _
    cases pat with
    | nil => exact absurd rfl hp
    | cons p ps =>
      simp only [List.nil_append] at hfuel ⊢
      cases fuel with
      | zero => simp at hfuel
      | succ f =>
        unfold removeOccurAux
        rw [if_pos ((listPrefixOf_iff_append _ _).mpr ⟨[], by simp⟩)]
        rw [show (p :: ps).drop (p :: ps).length = [] from List.drop_length _]
        exact removeOccurAux_nil _ _
  | cons c s' ih =>
    intro fuel hfuel hocc
    rw [List.cons_append] at hfuel ⊢
    cases fuel with
    | zero => simp at hfuel
    | succ f =>
      unfold removeOccurAux
      rw [List.cons_append] at hocc
      unfold containsSub at hocc
      rw [Bool.or_eq_false_iff] at hocc
      have hnopre : listPrefixOf pat (c :: (s' ++ pat)) = false := by
        rw [Bool.eq_false_iff]
        intro hpre
        obtain ⟨t, ht⟩ := (listPrefixOf_iff_append _ _).mp hpre
        have htne : t ≠ [] := by
          intro h0
          rw [h0, List.append_nil] at ht
          have := congrArg List.length ht
          simp at this
          omega
        have hdrop : c :: (s' ++ pat.dropLast) = pat ++ t.dropLast := by
          have h2 := congrArg List.dropLast ht
          rw [← List.cons_append] at h2
          rw [List.dropLast_append_of_ne_nil _ hp] at h2
          rw [List.dropLast_append_of_ne_nil _ htne] at h2
          rw [List.cons_append] at h2
          exact h2
        have : listPrefixOf pat (c :: (s' ++ pat.dropLast)) = true :=
          (listPrefixOf_iff_append _ _).mpr ⟨t.dropLast, hdrop⟩
        rw [hocc.1] at this
        cases this
      rw [if_neg (by rw [hnopre]; simp)]
      rw [ih f (by simp at hfuel ⊢; omega) hocc.2]

/-- Chunking a list into 1000-row groups and concatenating gives back the
list. -/
theorem flatten_chunks {α : Type} :
    ∀ (m : Nat) (l : List α), l.length ≤ 1000 * m →
      ((List.range m).map (fun i => (l.drop (1000 * i)).take 1000)).flatten = l := by
  intro m
  induction m with
  | zero =>
    intro l h
    simp at h
    subst h
    rfl
  | succ m ih =>
    intro l h
    rw [List.range_succ_eq_map, List.map_cons, List.flatten_cons, List.map_map]
    have hcomp : ∀ i ∈ List.range m,
        ((fun i => (l.drop (1000 * i)).take 1000) ∘ Nat.succ) i
          = ((l.drop 1000).drop (1000 * i)).take 1000 := by
      intro i _
      show (l.drop (1000 * (i + 1))).take 1000 = ((l.drop 1000).drop (1000 * i)).take 1000
      rw [List.drop_drop]
      congr 2
      omega
    rw [List.map_congr_left hcomp]
    rw [ih (l.drop 1000) (by rw [List.length_drop]; omega)]
    rw [Nat.mul_zero, List.drop_zero, List.take_append_drop]

/-- Counting the commit/rollback/insert/create operations of a successful
per-file run. -/
theorem countP_success_ops (t : String) (cols : List String)
    (bs : List (List (List Cell))) :
    (DbOp.createTable t cols ::
        bs.map (fun b => DbOp.insertBatch t b.length) ++ [DbOp.commit]).countP isCommit = 1 ∧
    (DbOp.createTable t cols ::
        bs.map (fun b => DbOp.insertBatch t b.length) ++ [DbOp.commit]).countP isRollback = 0 ∧
    (DbOp.createTable t cols ::
        bs.map (fun b => DbOp.insertBatch t b.length) ++ [DbOp.commit]).countP isInsertOp
      = bs.length ∧
    (DbOp.createTable t cols ::
        bs.map (fun b => DbOp.insertBatch t b.length) ++ [DbOp.commit]).countP isCreate = 1 := by
  refine ⟨?_, ?_, ?_, ?_⟩ <;>
    simp [List.countP_cons, List.countP_append, List.countP_map, Function.comp,
      isCommit, isRollback, isInsertOp, isCreate, List.countP_eq_length]

/-! ## Claims -/

/-- C1: for every dataset (its parsed column labels are pairwise distinct,
as the parsing collaborator guarantees), the sequence of column
identifiers produced for table creation is identical, element by element
and in order, to the sequence recomputed for data insertion; in particular
both paths map `["id", "Name"]` to `["original_id", "name"]`. -/
theorem C1_column_paths_agree (cols : List String) (h : cols.Nodup) :
    createTableColumns cols = insertDataColumns cols ∧
    createTableColumns ["id", "Name"] = ["original_id", "name"] ∧
    insertDataColumns ["id", "Name"] = ["original_id", "name"] := by
  refine ⟨?_, by decide, by decide⟩
  unfold createTableColumns insertDataColumns
  rw [dedupKeepFirst_of_nodup cols h]

theorem C1_column_paths_agree_witness :
    List.Nodup ["id", "Name"] ∧
    createTableColumns ["id", "Name"] = insertDataColumns ["id", "Name"] :=
  ⟨by decide, (C1_column_paths_agree ["id", "Name"] (by decide)).1⟩

/-- C2: for a non-empty dataset of `n` rows (and at least one column, so
the frame is not empty), `insert_data` issues exactly `⌈n / 1000⌉` grouped
inserts, all of size 1000 except a final batch of `n mod 1000` when `n` is
not a multiple of 1000, the concatenation of the batches is exactly the
row list, and the returned count is `n`. -/
theorem C2_batch_structure (df : Dataset) (h1 : df.rows ≠ []) (h2 : df.cols ≠ []) :
    (insert_data df).returned = df.rows.length ∧
    (insert_data df).batches.length = (df.rows.length + 999) / 1000 ∧
    (∀ b ∈ (insert_data df).batches.dropLast, b.length = 1000) ∧
    (∀ b, (insert_data df).batches.getLast? = some b →
      b.length = if df.rows.length % 1000 = 0 then 1000 else df.rows.length % 1000) ∧
    (insert_data df).batches.flatten = df.rows := by
  have hn : 0 < df.rows.length := List.length_pos.mpr h1
  have hcond : ¬ ((df.rows.isEmpty || df.cols.isEmpty) = true) := by
    rw [Bool.or_eq_true]
    rintro (hx | hx)
    · exact h1 (List.isEmpty_iff.mp hx)
    · exact h2 (List.isEmpty_iff.mp hx)
  obtain ⟨m, hm⟩ : ∃ m, (df.rows.length + 999) / 1000 = m + 1 :=
    ⟨(df.rows.length + 999) / 1000 - 1, by omega⟩
  have hB : (insert_data df).batches
      = (List.range ((df.rows.length + 999) / 1000)).map
          (fun i => (df.rows.drop (1000 * i)).take 1000) := by
    unfold insert_data
    rw [if_neg hcond]
  have hR : (insert_data df).returned = df.rows.length := by
    unfold insert_data
    rw [if_neg hcond]
  refine ⟨hR, by rw [hB]; simp, ?_, ?_, ?_⟩
  · intro b hb
    rw [hB, hm, List.range_succ, List.map_append, List.map_singleton,
      List.dropLast_concat] at hb
    obtain ⟨i, hi, hfi⟩ := List.mem_map.mp hb
    rw [List.mem_range] at hi
    rw [← hfi, List.length_take, List.length_drop]
    omega
  · intro b hb
    rw [hB, hm, List.range_succ, List.map_append, List.map_singleton,
      List.getLast?_concat] at hb
    injection hb with hb2
    rw [← hb2, List.length_take, List.length_drop]
    split_ifs <;> omega
  · rw [hB]
    exact flatten_chunks _ _ (by omega)

theorem C2_batch_structure_witness :
    (List.replicate 2500 ([] : List Cell)) ≠ [] ∧ (["x"] : List String) ≠ [] ∧
    (insert_data ⟨["x"], List.replicate 2500 []⟩).returned = 2500 ∧
    (insert_data ⟨["x"], List.replicate 2500 []⟩).batches.length = 3 ∧
    (∀ b ∈ (insert_data ⟨["x"], List.replicate 2500 []⟩).batches.dropLast,
      b.length = 1000) ∧
    (∀ b, (insert_data ⟨["x"], List.replicate 2500 []⟩).batches.getLast? = some b →
      b.length = 500) := by
  have hne : (List.replicate 2500 ([] : List Cell)) ≠ [] := by
    intro hcontra
    have hlen := congrArg List.length hcontra
    rw [List.length_replicate] at hlen
    exact absurd hlen (by decide)
  have h := C2_batch_structure ⟨["x"], List.replicate 2500 []⟩ hne
    (List.cons_ne_nil _ _)
  refine ⟨hne, List.cons_ne_nil _ _, ?_, ?_, h.2.2.1, ?_⟩
  · rw [h.1, List.length_replicate]
  · rw [h.2.1, List.length_replicate]
  · intro b hb
    have hlast := h.2.2.2.1 b hb
    rw [hlast, List.length_replicate]
    decide

/-- C3: any error raised while parsing, building the schema/table or
inserting causes exactly one rollback and a FAILED result carrying that
error's description; a fully loaded file causes a commit and a SUCCESS
result with the inserted row count and column count; and the main loop
maps every file to its own result independently of the other files. -/
theorem C3_transactional_orchestration (job : FileJob) :
    (∀ e, firstError job = some e →
      ((load_csv_to_postgres job).2.countP isRollback = 1 ∧
       (load_csv_to_postgres job).2.countP isCommit = 0 ∧
       (load_csv_to_postgres job).1.status = LoadStatus.failed ∧
       (load_csv_to_postgres job).1.error = some e)) ∧
    (∀ df, job.parseResult = Except.ok df → job.createErr = none →
      job.insertErr = none →
      ((load_csv_to_postgres job).2.countP isCommit = 1 ∧
       (load_csv_to_postgres job).2.countP isRollback = 0 ∧
       (load_csv_to_postgres job).1.status = LoadStatus.success ∧
       (load_csv_to_postgres job).1.rows = some (insert_data df).returned ∧
       (load_csv_to_postgres job).1.columns = some df.cols.length ∧
       (load_csv_to_postgres job).1.error = none)) ∧
    (∀ (jobs : List FileJob) (i : Nat),
      (processFiles jobs).length = jobs.length ∧
      (processFiles jobs)[i]? = (jobs[i]?).map load_csv_to_postgres) := by
  obtain ⟨f, p, ce, ie⟩ := job
  refine ⟨?_, ?_, ?_⟩
  · intro e he
    cases p with
    | error e2 =>
      simp [firstError] at he
      subst he
      exact ⟨rfl, rfl, rfl, rfl⟩
    | ok df =>
      cases ce with
      | some e2 =>
        simp [firstError] at he
        subst he
        exact ⟨rfl, rfl, rfl, rfl⟩
      | none =>
        cases ie with
        | some e2 =>
          simp [firstError] at he
          subst he
          exact ⟨rfl, rfl, rfl, rfl⟩
        | none =>
          simp [firstError] at he
  · intro df hp hce hie
    subst hp
    subst hce
    subst hie
    obtain ⟨hc1, hc2, _, _⟩ :=
      countP_success_ops (get_table_name_from_filename f)
        (createTableColumns df.cols) (insert_data df).batches
    exact ⟨hc1, hc2, rfl, rfl, rfl, rfl⟩
  · intro jobs i
    exact ⟨List.length_map _ _, List.getElem?_map _ _ _⟩

theorem C3_transactional_orchestration_witness :
    firstError ⟨"b.csv", Except.error "boom", none, none⟩ = some "boom" ∧
    (load_csv_to_postgres ⟨"b.csv", Except.error "boom", none, none⟩).2.countP
      isRollback = 1 ∧
    (load_csv_to_postgres ⟨"b.csv", Except.error "boom", none, none⟩).1.status
      = LoadStatus.failed ∧
    (load_csv_to_postgres ⟨"b.csv", Except.error "boom", none, none⟩).1.error
      = some "boom" ∧
    (load_csv_to_postgres ⟨"a.csv",
      Except.ok ⟨["X", "Y"], [[some "1", some "2"], [some "3", some "4"]]⟩,
      none, none⟩).2.countP isCommit = 1 ∧
    (load_csv_to_postgres ⟨"a.csv",
      Except.ok ⟨["X", "Y"], [[some "1", some "2"], [some "3", some "4"]]⟩,
      none, none⟩).1.status = LoadStatus.success ∧
    (load_csv_to_postgres ⟨"a.csv",
      Except.ok ⟨["X", "Y"], [[some "1", some "2"], [some "3", some "4"]]⟩,
      none, none⟩).1.rows = some 2 ∧
    (load_csv_to_postgres ⟨"a.csv",
      Except.ok ⟨["X", "Y"], [[some "1", some "2"], [some "3", some "4"]]⟩,
      none, none⟩).1.columns = some 2 ∧
    (processFiles [⟨"b.csv", Except.error "boom", none, none⟩,
      ⟨"a.csv", Except.ok ⟨["X", "Y"], [[some "1", some "2"], [some "3", some "4"]]⟩,
        none, none⟩])[1]?
      = some (load_csv_to_postgres ⟨"a.csv",
          Except.ok ⟨["X", "Y"], [[some "1", some "2"], [some "3", some "4"]]⟩,
          none, none⟩) := by
  have h1 := (C3_transactional_orchestration
    ⟨"b.csv", Except.error "boom", none, none⟩).1 "boom" rfl
  have h2 := (C3_transactional_orchestration ⟨"a.csv",
    Except.ok ⟨["X", "Y"], [[some "1", some "2"], [some "3", some "4"]]⟩,
    none, none⟩).2.1 ⟨["X", "Y"], [[some "1", some "2"], [some "3", some "4"]]⟩
    rfl rfl rfl
  have h3 := ((C3_transactional_orchestration
    ⟨"b.csv", Except.error "boom", none, none⟩).2.2
    [⟨"b.csv", Except.error "boom", none, none⟩,
     ⟨"a.csv", Except.ok ⟨["X", "Y"], [[some "1", some "2"], [some "3", some "4"]]⟩,
       none, none⟩] 1).2
  refine ⟨rfl, h1.1, h1.2.2.1, h1.2.2.2, h2.1, h2.2.2.1, ?_, ?_, ?_⟩
  · rw [h2.2.2.2.1]
    rfl
  · rw [h2.2.2.2.2.1]
    rfl
  · rw [h3]
    rfl

/-- C4 counterexample: two distinct labels that sanitize to the same
identifier defeat case-insensitive uniqueness. -/
theorem C4_counterexample :
    createTableColumns ["A B", "A-B"] = ["a_b", "a_b"] ∧
    ¬ ((createTableColumns ["A B", "A-B"]).map lowerStr).Nodup := by
  exact ⟨by decide, by decide⟩

/-- C4 (amended): the identifiers of the built schema are pairwise
distinct case-insensitively provided the sanitized labels are already
pairwise distinct case-insensitively and, when a label sanitizes to `id`,
no other label sanitizes to `original_id`. -/
theorem C4_unique_when_no_collision (cols : List String)
    (h1 : (((dedupKeepFirst cols).map sanitize_column_name).map lowerStr).Nodup)
    (h2 : "id" ∈ ((dedupKeepFirst cols).map sanitize_column_name).map lowerStr →
      "original_id" ∉ ((dedupKeepFirst cols).map sanitize_column_name).map lowerStr) :
    ((createTableColumns cols).map lowerStr).Nodup := by
  unfold createTableColumns renameIdList
  by_cases hany : (((dedupKeepFirst cols).map sanitize_column_name).any
      fun n => lowerStr n = "id") = true
  · rw [if_pos hany]
    have hid : "id" ∈ ((dedupKeepFirst cols).map sanitize_column_name).map lowerStr := by
      rw [List.any_eq_true] at hany
      obtain ⟨n, hn, hlow⟩ := hany
      rw [decide_eq_true_eq] at hlow
      exact List.mem_map.mpr ⟨n, hn, hlow⟩
    have hoid := h2 hid
    have hmaps : (((dedupKeepFirst cols).map sanitize_column_name).map
          fun n => if lowerStr n = "id" then "original_id" else n).map lowerStr
        = (((dedupKeepFirst cols).map sanitize_column_name).map lowerStr).map
          fun x => if x = "id" then "original_id" else x := by
      simp only [List.map_map]
      refine List.map_congr_left ?_
      intro n _
      show lowerStr (if lowerStr (sanitize_column_name n) = "id" then "original_id"
            else sanitize_column_name n)
          = if lowerStr (sanitize_column_name n) = "id" then "original_id"
            else lowerStr (sanitize_column_name n)
      by_cases hn : lowerStr (sanitize_column_name n) = "id"
      · rw [if_pos hn, if_pos hn]
        decide
      · rw [if_neg hn, if_neg hn]
    rw [hmaps]
    refine List.Nodup.map_on ?_ h1
    intro x hx y hy hxy
    by_cases hxid : x = "id" <;> by_cases hyid : y = "id"
    · rw [hxid, hyid]
    · rw [if_pos hxid, if_neg hyid] at hxy
      rw [← hxy] at hy
      exact absurd hy hoid
    · rw [if_neg hxid, if_pos hyid] at hxy
      rw [hxy] at hx
      exact absurd hx hoid
    · rw [if_neg hxid, if_neg hyid] at hxy
      exact hxy
  · rw [if_neg hany]
    exact h1

theorem C4_unique_when_no_collision_witness :
    (((dedupKeepFirst ["id", "Name"]).map sanitize_column_name).map lowerStr).Nodup ∧
    ((createTableColumns ["id", "Name"]).map lowerStr).Nodup :=
  ⟨by decide, C4_unique_when_no_collision ["id", "Name"] (by decide) (by decide)⟩

/-- C5 counterexample: `replace(".csv", "")` removes an interior
occurrence as well as the trailing extension. -/
theorem C5_counterexample :
    get_table_name_from_filename "my.csvdata.csv" = "mydata" ∧
    get_table_name_from_filename "my.csvdata.csv" ≠ "my.csvdata" := by
  exact ⟨by decide, by decide⟩

/-- C5 (amended): the table name is the filename with every occurrence of
`.csv` removed; when the only occurrence of `.csv` is the trailing
extension, the result is exactly the filename minus that extension. -/
theorem C5_trailing_extension_only (stem : List Char)
    (h : containsSub ".csv".data (stem ++ ".csv".data.dropLast) = false) :
    get_table_name_from_filename ⟨stem ++ ".csv".data⟩ = ⟨stem⟩ := by
  unfold get_table_name_from_filename removeOccur
  exact congrArg String.mk
    (removeOccurAux_stem ".csv".data (by decide) stem _ le_rfl h)

theorem C5_trailing_extension_only_witness :
    containsSub ".csv".data ("patients".data ++ ".csv".data.dropLast) = false ∧
    get_table_name_from_filename ⟨"patients".data ++ ".csv".data⟩
      = ⟨"patients".data⟩ :=
  ⟨by decide, C5_trailing_extension_only "patients".data (by decide)⟩

/-- C6: for every (ASCII) label, the sanitized output matches
`^[a-z_][a-z0-9_]*$` or is the literal `unnamed_column`; it is never empty
and never starts with a digit; and the four concrete examples evaluate as
the specification states. -/
theorem C6_sanitize_output_shape (s : String)
    ( _h : s.data.all isAsciiChar = true) :
    (matchesIdentPattern (sanitize_column_name s) = true ∨
      sanitize_column_name s = "unnamed_column") ∧
    sanitize_column_name s ≠ "" ∧
    firstCharDigit (sanitize_column_name s) = false ∧
    sanitize_column_name "Patient ID" = "patient_id" ∧
    sanitize_column_name "2nd-Dose (mg)" = "col_2nd_dose_mg" ∧
    sanitize_column_name "" = "unnamed_column" ∧
    sanitize_column_name "___" = "unnamed_column" := by
  obtain ⟨hne, hmem, hhead, _, _⟩ := sanitizeChars_clean s.data
  refine ⟨Or.inl (matchesIdent_of_clean _ hne hmem hhead), ?_, ?_,
    by decide, by decide, by decide, by decide⟩
  · intro hcon
    exact hne (congrArg String.data hcon)
  · show headIsDigit (sanitizeChars s.data) = false
    cases hx : sanitizeChars s.data with
    | nil => exact absurd hx hne
    | cons a rest =>
      have hha := hhead a (by rw [hx]; rfl)
      show isDigitChar a = false
      rw [Bool.eq_false_iff]
      intro hdig
      rw [isDigitChar_iff] at hdig
      omega

theorem C6_sanitize_output_shape_witness :
    ("Patient ID".data.all isAsciiChar = true) ∧
    (matchesIdentPattern (sanitize_column_name "Patient ID") = true ∨
      sanitize_column_name "Patient ID" = "unnamed_column") ∧
    sanitize_column_name "Patient ID" ≠ "" ∧
    firstCharDigit (sanitize_column_name "Patient ID") = false := by
  have h := C6_sanitize_output_shape "Patient ID" (by decide)
  exact ⟨by decide, h.1, h.2.1, h.2.2.1⟩

/-- C7: the type inferencer is total, returns exactly one of the six type
tags, and evaluates its matches in the precedence order integer, float,
boolean, datetime, date, with TEXT for everything else. -/
theorem C7_type_inference_total_precedence (dtype : String) :
    get_postgres_type dtype = tagToSql (inferTagSpec dtype) ∧
    get_postgres_type dtype ∈
      ["BIGINT", "DOUBLE PRECISION", "BOOLEAN", "TIMESTAMP", "DATE", "TEXT"] := by
  constructor
  · unfold get_postgres_type inferTagSpec
    split_ifs <;> rfl
  · unfold get_postgres_type
    split_ifs <;> decide

/-- C8: a dataset with zero rows makes `insert_data` return 0 with no
grouped insert issued, and the orchestrator still creates the table,
commits, and reports SUCCESS with 0 rows. -/
theorem C8_empty_dataset_loads_nothing (df : Dataset) (job : FileJob)
    (h : df.rows = [])
    (hp : job.parseResult = Except.ok df) (hc : job.createErr = none)
    (hi : job.insertErr = none) :
    (insert_data df).returned = 0 ∧
    (insert_data df).batches = [] ∧
    (load_csv_to_postgres job).2.countP isInsertOp = 0 ∧
    (load_csv_to_postgres job).2.countP isCreate = 1 ∧
    (load_csv_to_postgres job).2.countP isCommit = 1 ∧
    (load_csv_to_postgres job).1.status = LoadStatus.success ∧
    (load_csv_to_postgres job).1.rows = some 0 := by
  have hins : insert_data df = ⟨[], [], 0⟩ := by
    unfold insert_data
    rw [if_pos (by rw [h]; rfl)]
  obtain ⟨f, p, ce, ie⟩ := job
  subst hp
  subst hc
  subst hi
  obtain ⟨hc1, _, _, hc4⟩ :=
    countP_success_ops (get_table_name_from_filename f)
      (createTableColumns df.cols) (insert_data df).batches
  refine ⟨by rw [hins], by rw [hins], ?_, hc4, hc1, rfl, ?_⟩
  · show (DbOp.createTable (get_table_name_from_filename f) (createTableColumns df.cols) ::
        (insert_data df).batches.map
          (fun b => DbOp.insertBatch (get_table_name_from_filename f) b.length)
        ++ [DbOp.commit]).countP isInsertOp = 0
    rw [hins]
    rfl
  · show some (insert_data df).returned = some 0
    rw [hins]

theorem C8_empty_dataset_loads_nothing_witness :
    (⟨["a"], []⟩ : Dataset).rows = [] ∧
    (insert_data ⟨["a"], []⟩).returned = 0 ∧
    (insert_data ⟨["a"], []⟩).batches = [] ∧
    (load_csv_to_postgres ⟨"t.csv", Except.ok ⟨["a"], []⟩, none, none⟩).2.countP
      isInsertOp = 0 ∧
    (load_csv_to_postgres ⟨"t.csv", Except.ok ⟨["a"], []⟩, none, none⟩).1.rows
      = some 0 := by
  have h := C8_empty_dataset_loads_nothing ⟨["a"], []⟩
    ⟨"t.csv", Except.ok ⟨["a"], []⟩, none, none⟩ rfl rfl rfl rfl
  exact ⟨rfl, h.1, h.2.1, h.2.2.1, h.2.2.2.2.2.2⟩

/-- C9: the sanitizer is idempotent on its own outputs. -/
theorem C9_sanitize_idempotent (x : String)
    ( _h : ∃ y, sanitize_column_name y = x) :
    sanitize_column_name (sanitize_column_name x) = sanitize_column_name x :=
  congrArg String.mk (sanitizeChars_idem x.data)

theorem C9_sanitize_idempotent_witness :
    (∃ y, sanitize_column_name y = "patient_id") ∧
    sanitize_column_name (sanitize_column_name "patient_id")
      = sanitize_column_name "patient_id" :=
  ⟨⟨"Patient ID", by decide⟩,
    C9_sanitize_idempotent "patient_id" ⟨"Patient ID", by decide⟩⟩

/-- C10: the `id` rename fires on the sanitized identifier: the label
`ID.`, which is not literally `id` or `ID` but sanitizes to `id`, becomes
`original_id` on both the creation and insertion paths. -/
theorem C10_rename_triggers_on_sanitized :
    sanitize_column_name "ID." = "id" ∧
    "ID." ≠ "id" ∧ "ID." ≠ "ID" ∧
    createTableColumns ["ID.", "Name"] = ["original_id", "name"] ∧
    insertDataColumns ["ID.", "Name"] = ["original_id", "name"] := by
  exact ⟨by decide, by decide, by decide, by decide, by decide⟩

end UploadCsv
